import Mathlib

/-!
Shallow embedding of the pixel-permutation utilities of the
`DSA5204_permutation` notebook: the permutation generator
(`get_shuffle_indices`), the image permuter (`shuffle_image`) and the
weight realigner (`magic`), together with the numpy array operations
they use (`reshape`, integer-array indexing, `squeeze`).

Arrays are modelled as a shape plus row-major flat data over `Int`
(the claims under study are exact reordering and exact-arithmetic
statements).  Each numpy operation that can raise in Python is
embedded as an `Except`-valued function whose error cases are exactly
the Python failure points (reshape failure, index out of bounds,
tuple-unpacking failure, and the ValueError of a too-small random
draw, modelled by the failure-aware generator variant).

The notebook hard-codes the MNIST geometry: images are 28 x 28 and the
flattened length is 784.  Following the contracts of the specification,
which state the same algorithms over a general `[H, W]` image shape
and a general permutation size, those constants appear here as
parameters; the exact functions of the notebook are recovered as the
instances `shuffle_image_nb` (28 x 28) and `get_shuffle_indices`
(size 784), defined below.
-/

/-- The failure conditions of the embedded numpy operations:
`reshapeError` is the inability of numpy to reshape (including an
un-inferable `-1` dimension), `indexError` an out-of-bounds integer
index, `unpackError` a Python tuple-unpacking arity failure, and
`valueError` the ValueError `np.random.choice` raises when asked to
sample two distinct indices from a range holding fewer than two. -/
inductive ArrayError where
  | reshapeError
  | indexError
  | unpackError
  | valueError
deriving DecidableEq

/-- A numpy-style n-dimensional array: a shape together with the
row-major flat data. -/
structure NDArray where
  shape : List Nat
  data : List Int
deriving DecidableEq

/-- Numpy integer-array indexing of a 1-D array: `arr[idx]` selects, for
each position of `idx`, the element of `arr` at that index.  This is the
per-row core of `image[:, shuf_idx]` in `shuffle_image` (out-of-range
reads are guarded by the callers below and default to `0` here). -/
def indexSelect (idx : List Nat) (row : List Int) : List Int :=
  idx.map fun i => row.getD i 0

/-- Row `r` of a 2-D array with row length `m`, stored flat. -/
def rowSlice (m r : Nat) (x : List Int) : List Int :=
  (x.drop (r * m)).take m

/-- `a.reshape(a.shape[0], -1)`, the first reshape in `shuffle_image`:
the leading dimension is kept and the trailing `-1` is inferred, which
numpy can do exactly when the leading dimension is nonzero and divides
the total element count. -/
def reshapeRows (a : NDArray) : Except ArrayError NDArray :=
  let n := a.shape.headD 0
  if n ≠ 0 ∧ n ∣ a.data.length then .ok ⟨[n, a.data.length / n], a.data⟩
  else .error .reshapeError

/-- `a.reshape(-1, h, w)`, the final reshape in `shuffle_image`: the
leading `-1` is inferred, which numpy can do exactly when `h * w` is
nonzero and divides the total element count. -/
def reshapeImages (h w : Nat) (a : NDArray) : Except ArrayError NDArray :=
  if h * w ≠ 0 ∧ (h * w) ∣ a.data.length then
    .ok ⟨[a.data.length / (h * w), h, w], a.data⟩
  else .error .reshapeError

/-- `a[:, idx]` for a 2-D array `a`: numpy integer-array indexing along
the second axis, applied to every row.  Fails with an index error when
some index is out of range for the row length. -/
def fancyCols (a : NDArray) (idx : List Nat) : Except ArrayError NDArray :=
  let n := a.shape.getD 0 0
  let m := a.shape.getD 1 0
  if idx.all (· < m) then
    .ok ⟨[n, idx.length],
         ((List.range n).map fun r => indexSelect idx (rowSlice m r a.data)).flatten⟩
  else .error .indexError

/-- `a[idx, :]` for a 2-D array `a`: numpy integer-array indexing along
the first axis, selecting whole rows; this is `W[shuf_idx, :]` in
`magic`.  Fails with an index error when some index is out of range for
the row count. -/
def fancyRows (a : NDArray) (idx : List Nat) : Except ArrayError NDArray :=
  let d := a.shape.getD 0 0
  let h := a.shape.getD 1 0
  if idx.all (· < d) then
    .ok ⟨[idx.length, h], (idx.map fun r => rowSlice h r a.data).flatten⟩
  else .error .indexError

/-- `np.squeeze`: drops every axis of length `1`, keeping the data. -/
def squeeze (a : NDArray) : NDArray :=
  ⟨a.shape.filter (· ≠ 1), a.data⟩

/-- The image permuter of the notebook, with the hard-coded `28, 28` of
`reshape(-1, 28, 28)` abstracted as parameters `h, w` (the notebook
instance is `shuffle_image_nb` below):

a 2-D input is first given a leading batch axis (`image[None, :, :]`),
the batch is flattened to one row per image (`reshape(shape[0], -1)`),
each row is reordered by the index array (`image[:, shuf_idx]`), the
result is reshaped back to images (`reshape(-1, h, w)`) and squeezed. -/
def shuffle_image (h w : Nat) (image : NDArray) (shuf_idx : List Nat) :
    Except ArrayError NDArray :=
  let image := if image.shape.length = 2 then ⟨1 :: image.shape, image.data⟩ else image
  (reshapeRows image).bind fun image =>
  (fancyCols image shuf_idx).bind fun image =>
  (reshapeImages h w image).map squeeze

/-- The `shuffle_image` of the notebook exactly as written, with its
hard-coded 28 x 28 output geometry. -/
def shuffle_image_nb (image : NDArray) (shuf_idx : List Nat) :
    Except ArrayError NDArray :=
  shuffle_image 28 28 image shuf_idx

/-- The simultaneous pairwise swap
`shuf_idx[i], shuf_idx[j] = shuf_idx[j], shuf_idx[i]`: both old values
are read first, then written to the exchanged positions. -/
def swapPos (l : List Nat) (i j : Nat) : List Nat :=
  (l.set i (l.getD j 0)).set j (l.getD i 0)

/-- The permutation generator of the notebook, with the hard-coded `784` of
`np.arange(784)` and `np.random.choice(784, ...)` abstracted as the
parameter `size` (the notebook instance is `get_shuffle_indices`
below).  The random source `rng` yields, for each iteration, the pair
of indices that `np.random.choice(size, size=(2,), replace=False)`
draws; `np.random.choice` guarantees the two indices are distinct and
in `[0, size)`, which theorems below take as hypotheses on `rng`.
Starting from the identity index array, each iteration swaps the two
drawn positions. -/
def generate_permutation (size n : Nat) (rng : Nat → Nat × Nat) : List Nat :=
  (List.range n).foldl (fun l k => swapPos l (rng k).1 (rng k).2) (List.range size)

/-- The `get_shuffle_indices` of the notebook exactly as written: `n`
pairwise swaps of the identity array `np.arange(784)`. -/
def get_shuffle_indices (n : Nat) (rng : Nat → Nat × Nat) : List Nat :=
  generate_permutation 784 n rng

/-- One draw `np.random.choice(size, size=(2,), replace=False)` with
its own failure semantics: sampling two distinct indices without
replacement from `[0, size)` raises ValueError unless `2 ≤ size`
(numpy rejects an empty population, and a sample larger than the
population when `replace=False`); on success the sample is the pair
supplied by the random source, which `choice` guarantees to be two
distinct in-range indices. -/
def choicePair (size : Nat) (pair : Nat × Nat) : Except ArrayError (Nat × Nat) :=
  if 2 ≤ size then .ok pair else .error .valueError

/-- The simultaneous pairwise swap with the Python indexing failure
made explicit: reading or writing `shuf_idx[i]` or `shuf_idx[j]` out
of range raises IndexError. -/
def swapPosChecked (l : List Nat) (i j : Nat) : Except ArrayError (List Nat) :=
  if i < l.length ∧ j < l.length then .ok (swapPos l i j) else .error .indexError

/-- The generator with the failure semantics of its numpy steps made
explicit: iteration `k` first draws `i, j = np.random.choice(size,
size=(2,), replace=False)` — which can itself raise — and then swaps
the two drawn positions of the running index array.  Where every draw
succeeds with in-range indices (which `choice` guarantees whenever it
succeeds at all), this agrees with `generate_permutation`; see
`generate_permutation_checked_agrees`. -/
def generate_permutation_checked (size n : Nat) (rng : Nat → Nat × Nat) :
    Except ArrayError (List Nat) :=
  (List.range n).foldl
    (fun acc k => acc.bind fun l =>
      (choicePair size (rng k)).bind fun ij => swapPosChecked l ij.1 ij.2)
    (.ok (List.range size))

/-- The weight realigner `magic` of the notebook, acting on the weight
list of the model, namely `[W, b, w, c]` (first-layer kernel, first-layer bias,
second-layer kernel, second-layer bias): it unpacks exactly four
arrays (a Python unpacking failure otherwise), replaces the kernel by
`W[shuf_idx, :]` and returns the new weight list. -/
def magic (weights : List NDArray) (shuf_idx : List Nat) :
    Except ArrayError (List NDArray) :=
  match weights with
  | [W, b, w, c] => (fancyRows W shuf_idx).map fun Wshuf => [Wshuf, b, w, c]
  | _ => .error .unpackError

/-- Pre-activations of a dense layer with kernel `K` of shape `[d, h]`
on an input vector `x` of length `d`: entry `j` of `K^T x` is the sum
over `i` of `K[i, j] * x[i]`. -/
def preactT (K : NDArray) (x : List Int) : List Int :=
  let d := K.shape.getD 0 0
  let h := K.shape.getD 1 0
  (List.range h).map fun j =>
    ((List.range d).map fun i => K.data.getD (i * h + j) 0 * x.getD i 0).sum

/-- A heap of arrays, for stating that the permuter never writes into
the arrays of its caller: a reference is an index into the heap. -/
structure ArrStore where
  arrays : List NDArray
deriving DecidableEq

/-- Dereference an array in the heap. -/
def arrGet (s : ArrStore) (r : Nat) : NDArray :=
  s.arrays.getD r ⟨[], []⟩

/-- Heap-level image permuter: every numpy step of `shuffle_image`
(axis insertion, `reshape` views, integer-array indexing, `squeeze`)
reads its operand and allocates or views a fresh result, never writing
into an existing buffer, so at the heap level the call reads the
argument array and appends one result array. -/
def shuffle_image_st (h w : Nat) (s : ArrStore) (r : Nat) (p : List Nat) :
    Except ArrayError (ArrStore × Nat) :=
  (shuffle_image h w (arrGet s r) p).map fun res =>
    (⟨s.arrays ++ [res]⟩, s.arrays.length)

/-- The value returned to the caller by the heap-level permuter: the
array its result reference points at. -/
def stResult (e : Except ArrayError (ArrStore × Nat)) : Except ArrayError NDArray :=
  e.map fun sr => arrGet sr.1 sr.2

/-- Unfolding one iteration of the swap loop of the generator. -/
theorem generate_permutation_succ (size n : Nat) (rng : Nat → Nat × Nat) :
    generate_permutation size (n + 1) rng
      = swapPos (generate_permutation size n rng) (rng n).1 (rng n).2 := by
  unfold generate_permutation
  rw [List.range_succ, List.foldl_append]
  rfl

theorem length_swapPos (l : List Nat) (i j : Nat) :
    (swapPos l i j).length = l.length := by
  simp [swapPos]

theorem getD_set_self (l : List Nat) (i a : Nat) (h : i < l.length) :
    (l.set i a).getD i 0 = a := by
  rw [List.getD_eq_getD_get?, List.get?_eq_getElem?, List.getElem?_set_self h]
  rfl

theorem getD_set_ne (l : List Nat) {i j : Nat} (a : Nat) (h : i ≠ j) :
    (l.set i a).getD j 0 = l.getD j 0 := by
  rw [List.getD_eq_getD_get?, List.get?_eq_getElem?, List.getElem?_set_ne h,
    ← List.get?_eq_getElem?, ← List.getD_eq_getD_get?]

/-- Pointwise description of the simultaneous pairwise swap. -/
theorem swapPos_getD (l : List Nat) {i j : Nat} (k : Nat)
    (hi : i < l.length) (hj : j < l.length) :
    (swapPos l i j).getD k 0 =
      if k = j then l.getD i 0 else if k = i then l.getD j 0 else l.getD k 0 := by
  unfold swapPos
  by_cases hkj : k = j
  · subst hkj
    rw [getD_set_self _ _ _ (by simpa using hj), if_pos rfl]
  · rw [getD_set_ne _ _ (fun h => hkj h.symm), if_neg hkj]
    by_cases hki : k = i
    · subst hki
      rw [getD_set_self _ _ _ hi, if_pos rfl]
    · rw [getD_set_ne _ _ (fun h => hki h.symm), if_neg hki]

/-- Swapping two in-range positions of the list tabulating `f` over
`Fin size` tabulates `f` composed with the transposition of the two
positions. -/
theorem swapPos_map_finRange {size : Nat} (f : Fin size → Nat) {i j : Nat}
    (hi : i < size) (hj : j < size) :
    swapPos ((List.finRange size).map f) i j
      = (List.finRange size).map fun t => f (Equiv.swap ⟨i, hi⟩ ⟨j, hj⟩ t) := by
  have hgetD : ∀ (g : Fin size → Nat) (m : Nat) (hm : m < size),
      ((List.finRange size).map g).getD m 0 = g ⟨m, hm⟩ := by
    intro g m hm
    rw [List.getD_eq_getElem _ _ (by simpa using hm)]
    simp
  apply List.ext_getElem
  · simp [length_swapPos]
  · intro k h1 h2
    have hk : k < size := by simpa [length_swapPos] using h1
    have hL : (swapPos ((List.finRange size).map f) i j)[k]
        = (swapPos ((List.finRange size).map f) i j).getD k 0 :=
      (List.getD_eq_getElem _ _ h1).symm
    have hR : ((List.finRange size).map fun t => f (Equiv.swap ⟨i, hi⟩ ⟨j, hj⟩ t))[k]
        = f (Equiv.swap ⟨i, hi⟩ ⟨j, hj⟩ ⟨k, hk⟩) := by
      simp
    rw [hL, hR, swapPos_getD _ k (by simpa using hi) (by simpa using hj)]
    by_cases hkj : k = j
    · subst hkj
      rw [if_pos rfl, hgetD f i hi, Equiv.swap_apply_right]
    · rw [if_neg hkj]
      by_cases hki : k = i
      · subst hki
        rw [if_pos rfl, hgetD f j hj, Equiv.swap_apply_left]
      · have hne1 : (⟨k, hk⟩ : Fin size) ≠ ⟨i, hi⟩ := by
          simp only [ne_eq, Fin.mk.injEq]; exact hki
        have hne2 : (⟨k, hk⟩ : Fin size) ≠ ⟨j, hj⟩ := by
          simp only [ne_eq, Fin.mk.injEq]; exact hkj
        rw [if_neg hki, hgetD f k hk, Equiv.swap_apply_of_ne_of_ne hne1 hne2]

/-- Tabulating the identity over `Fin size` gives the identity index
array. -/
theorem map_finRange_one (size : Nat) :
    ((List.finRange size).map fun t => (((1 : Equiv.Perm (Fin size)) t : Fin size) : Nat))
      = List.range size := by
  simp only [Equiv.Perm.coe_one, id_eq]
  exact List.map_coe_finRange size

/-- After `n` in-range swaps the running index array tabulates some
bijection of `Fin size`. -/
theorem generate_permutation_rep (size n : Nat) (rng : Nat → Nat × Nat)
    (hin : ∀ k, k < n → (rng k).1 < size ∧ (rng k).2 < size) :
    ∃ σ : Equiv.Perm (Fin size),
      generate_permutation size n rng
        = (List.finRange size).map fun t => ((σ t : Fin size) : Nat) := by
  induction n with
  | zero =>
    exact ⟨1, by rw [map_finRange_one]; rfl⟩
  | succ n ih =>
    obtain ⟨σ, hσ⟩ := ih fun k hk => hin k (Nat.lt_succ_of_lt hk)
    obtain ⟨hi, hj⟩ := hin n (Nat.lt_succ_self n)
    refine ⟨σ * Equiv.swap ⟨(rng n).1, hi⟩ ⟨(rng n).2, hj⟩, ?_⟩
    rw [generate_permutation_succ, hσ,
      swapPos_map_finRange (fun t => ((σ t : Fin size) : Nat)) hi hj]
    simp [Equiv.Perm.mul_apply]

/-- After `n` in-range swaps of distinct positions the running index
array tabulates a product of exactly `n` transpositions. -/
theorem generate_permutation_rep_swaps (size n : Nat) (rng : Nat → Nat × Nat)
    (hin : ∀ k, k < n → (rng k).1 < size ∧ (rng k).2 < size)
    (hne : ∀ k, k < n → (rng k).1 ≠ (rng k).2) :
    ∃ ts : List (Equiv.Perm (Fin size)),
      ts.length = n ∧ (∀ τ ∈ ts, τ.IsSwap) ∧
      generate_permutation size n rng
        = (List.finRange size).map fun t => ((ts.prod t : Fin size) : Nat) := by
  induction n with
  | zero =>
    exact ⟨[], rfl, by simp, by rw [List.prod_nil, map_finRange_one]; rfl⟩
  | succ n ih =>
    obtain ⟨ts, hlen, hsw, hts⟩ :=
      ih (fun k hk => hin k (Nat.lt_succ_of_lt hk))
        (fun k hk => hne k (Nat.lt_succ_of_lt hk))
    obtain ⟨hi, hj⟩ := hin n (Nat.lt_succ_self n)
    have hd : ((⟨(rng n).1, hi⟩ : Fin size)) ≠ ⟨(rng n).2, hj⟩ := by
      simp [Fin.ext_iff]; exact hne n (Nat.lt_succ_self n)
    refine ⟨ts ++ [Equiv.swap ⟨(rng n).1, hi⟩ ⟨(rng n).2, hj⟩], by simp [hlen], ?_, ?_⟩
    · intro τ hτ
      rcases List.mem_append.mp hτ with h | h
      · exact hsw τ h
      · rw [List.mem_singleton.mp h]
        exact ⟨_, _, hd, rfl⟩
    · rw [generate_permutation_succ, hts,
        swapPos_map_finRange (fun t => ((ts.prod t : Fin size) : Nat)) hi hj]
      simp [Equiv.Perm.mul_apply]

/-- A list tabulating a bijection of `Fin size` is a rearrangement of
the identity index array. -/
theorem map_perm_val_perm_range (size : Nat) (σ : Equiv.Perm (Fin size)) :
    ((List.finRange size).map fun t => ((σ t : Fin size) : Nat)).Perm
      (List.range size) := by
  have hnd : ((List.finRange size).map fun t => ((σ t : Fin size) : Nat)).Nodup := by
    refine List.Nodup.map ?_ (List.nodup_finRange size)
    exact fun a b hab => σ.injective (Fin.val_injective hab)
  have hsub : ((List.finRange size).map fun t => ((σ t : Fin size) : Nat))
      ⊆ List.range size := by
    intro x hx
    obtain ⟨t, _, ht⟩ := List.mem_map.mp hx
    rw [← ht]
    exact List.mem_range.mpr (σ t).isLt
  refine (List.subperm_of_subset hnd hsub).perm_of_length_le ?_
  simp

/-- Two tabulations over `Fin size` agree only for equal bijections. -/
theorem map_perm_val_inj {size : Nat} {σ τ : Equiv.Perm (Fin size)}
    (h : ((List.finRange size).map fun t => ((σ t : Fin size) : Nat))
        = (List.finRange size).map fun t => ((τ t : Fin size) : Nat)) :
    σ = τ := by
  apply Equiv.ext
  intro t
  apply Fin.val_injective
  have ht : (t : Nat) < ((List.finRange size).map
      fun t => ((σ t : Fin size) : Nat)).length := by simp [t.isLt]
  have := List.getElem_of_eq h ht
  simpa using this

/-- Claim C2: for every positive size and every number of swaps, the
generator returns a length-`size` list that is a permutation of
`[0, size)` — each value appears exactly once — provided each draw of
the random source is a pair of indices in `[0, size)`, which
`np.random.choice(size, ...)` guarantees. -/
theorem generate_permutation_is_permutation (size n : Nat) (rng : Nat → Nat × Nat)
    (_hsize : 0 < size)
    (hin : ∀ k, k < n → (rng k).1 < size ∧ (rng k).2 < size) :
    (generate_permutation size n rng).length = size ∧
    (generate_permutation size n rng).Perm (List.range size) := by
  obtain ⟨σ, hσ⟩ := generate_permutation_rep size n rng hin
  rw [hσ]
  exact ⟨by simp, map_perm_val_perm_range size σ⟩

/-- Witness for the bijection claim: size 4, two swaps drawn as
`(0, 1)` then `(1, 2)`. -/
theorem generate_permutation_is_permutation_witness :
    (0 < 4 ∧ (∀ k, k < 2 → ((fun k => (k, k + 1)) k).1 < 4 ∧ ((fun k => (k, k + 1)) k).2 < 4)) ∧
    ((generate_permutation 4 2 (fun k => (k, k + 1))).length = 4 ∧
      (generate_permutation 4 2 (fun k => (k, k + 1))).Perm (List.range 4)) :=
  ⟨⟨by decide, by decide⟩,
    generate_permutation_is_permutation 4 2 (fun k => (k, k + 1)) (by decide) (by decide)⟩

/-- Claim C9: because each draw of `np.random.choice(size, (2,),
replace=False)` is a pair of distinct in-range indices, every
iteration of the generator composes a genuine transposition, so the
result of `n` swaps tabulates a product of exactly `n` transpositions
of `Fin size`, whose sign is `(-1) ^ n`.  Consequently, for odd `n`
the result is never the identity index array, and for even `n` it is
never the identity with a single pair of positions exchanged. -/
theorem generate_permutation_parity (size n : Nat) (rng : Nat → Nat × Nat)
    (hin : ∀ k, k < n →
      (rng k).1 < size ∧ (rng k).2 < size ∧ (rng k).1 ≠ (rng k).2) :
    ∃ ts : List (Equiv.Perm (Fin size)),
      ts.length = n ∧ (∀ τ ∈ ts, τ.IsSwap) ∧
      generate_permutation size n rng
        = (List.finRange size).map (fun t => ((ts.prod t : Fin size) : Nat)) ∧
      ((Equiv.Perm.sign ts.prod : ℤˣ) : ℤ) = (-1) ^ n ∧
      (Odd n → generate_permutation size n rng ≠ List.range size) ∧
      (Even n → ∀ a b : Fin size, a ≠ b →
        generate_permutation size n rng ≠ swapPos (List.range size) a.val b.val) := by
  obtain ⟨ts, hlen, hsw, hrepr⟩ :=
    generate_permutation_rep_swaps size n rng
      (fun k hk => ⟨(hin k hk).1, (hin k hk).2.1⟩)
      (fun k hk => (hin k hk).2.2)
  have hsign : ((Equiv.Perm.sign ts.prod : ℤˣ) : ℤ) = (-1) ^ n := by
    have h1 : Equiv.Perm.sign ts.prod = (ts.map Equiv.Perm.sign).prod :=
      map_list_prod Equiv.Perm.sign ts
    have h2 : ts.map Equiv.Perm.sign = List.replicate n (-1) := by
      have hmem : ∀ x ∈ ts.map Equiv.Perm.sign, x = (-1 : ℤˣ) := by
        intro x hx
        obtain ⟨τ, hτ, rfl⟩ := List.mem_map.mp hx
        exact (hsw τ hτ).sign_eq
      have := List.eq_replicate_of_mem hmem
      simpa [hlen] using this
    rw [h1, h2, List.prod_replicate]
    simp
  have hid : Odd n → generate_permutation size n rng ≠ List.range size := by
    intro hodd heq
    have hprod : ts.prod = 1 :=
      map_perm_val_inj (by rw [← hrepr, heq, map_finRange_one])
    have hs1 : ((Equiv.Perm.sign ts.prod : ℤˣ) : ℤ) = 1 := by
      rw [hprod]
      simp
    rw [hsign, Odd.neg_one_pow hodd] at hs1
    omega
  have htr : Even n → ∀ a b : Fin size, a ≠ b →
      generate_permutation size n rng ≠ swapPos (List.range size) a.val b.val := by
    intro heven a b hab heq
    have hval : (List.finRange size).map (fun t : Fin size => (t : Nat))
        = List.range size := List.map_coe_finRange size
    have hswap : swapPos (List.range size) a.val b.val
        = (List.finRange size).map (fun t => ((Equiv.swap a b t : Fin size) : Nat)) := by
      rw [← hval, swapPos_map_finRange (fun t : Fin size => (t : Nat)) a.isLt b.isLt]
    have hprod : ts.prod = Equiv.swap a b :=
      map_perm_val_inj (by rw [← hrepr, heq, hswap])
    have hs1 : ((Equiv.Perm.sign ts.prod : ℤˣ) : ℤ) = -1 := by
      rw [hprod, Equiv.Perm.sign_swap hab]
      simp
    rw [hsign, Even.neg_one_pow heven] at hs1
    omega
  exact ⟨ts, hlen, hsw, hrepr, hsign, hid, htr⟩

/-- Witness for the parity claim: size 2, one swap drawn as `(0, 1)`. -/
theorem generate_permutation_parity_witness :
    (∀ k, k < 1 → ((fun (_ : Nat) => (0, 1)) k).1 < 2 ∧
      ((fun (_ : Nat) => (0, 1)) k).2 < 2 ∧
      ((fun (_ : Nat) => (0, 1)) k).1 ≠ ((fun (_ : Nat) => (0, 1)) k).2) ∧
    (∃ ts : List (Equiv.Perm (Fin 2)),
      ts.length = 1 ∧ (∀ τ ∈ ts, τ.IsSwap) ∧
      generate_permutation 2 1 (fun _ => (0, 1))
        = (List.finRange 2).map (fun t => ((ts.prod t : Fin 2) : Nat)) ∧
      ((Equiv.Perm.sign ts.prod : ℤˣ) : ℤ) = (-1) ^ 1 ∧
      (Odd 1 → generate_permutation 2 1 (fun _ => (0, 1)) ≠ List.range 2) ∧
      (Even 1 → ∀ a b : Fin 2, a ≠ b →
        generate_permutation 2 1 (fun _ => (0, 1)) ≠ swapPos (List.range 2) a.val b.val)) :=
  ⟨by decide, generate_permutation_parity 2 1 (fun _ => (0, 1)) (by decide)⟩

theorem length_indexSelect (idx : List Nat) (row : List Int) :
    (indexSelect idx row).length = idx.length := by
  simp [indexSelect]

theorem getD_indexSelect (idx : List Nat) (row : List Int) {k : Nat}
    (hk : k < idx.length) :
    (indexSelect idx row).getD k 0 = row.getD (idx.getD k 0) 0 := by
  rw [List.getD_eq_getElem _ _ (by simpa [length_indexSelect] using hk),
    List.getD_eq_getElem _ _ hk]
  simp [indexSelect]

theorem length_rowSlice (m r nb : Nat) (x : List Int)
    (hx : x.length = nb * m) (hr : r < nb) :
    (rowSlice m r x).length = m := by
  have h1 : (r + 1) * m ≤ nb * m := Nat.mul_le_mul_right m hr
  rw [Nat.succ_mul] at h1
  simp only [rowSlice, List.length_take, List.length_drop, hx]
  omega

theorem getD_rowSlice (m r : Nat) (x : List Int) {j : Nat} (hj : j < m) :
    (rowSlice m r x).getD j 0 = x.getD (r * m + j) 0 := by
  rw [rowSlice, List.getD_eq_getD_get?, List.get?_eq_getElem?, List.getElem?_take,
    if_pos hj, List.getElem?_drop, ← List.get?_eq_getElem?, ← List.getD_eq_getD_get?]

/-- Cutting row `r` back out of a flattened list of length-`m` rows
recovers that row. -/
theorem rowSlice_flatten (m : Nat) (rows : List (List Int))
    (hrows : ∀ row ∈ rows, row.length = m) :
    ∀ r, r < rows.length → rowSlice m r rows.flatten = rows.getD r [] := by
  induction rows with
  | nil =>
    intro r hr
    exact absurd hr (by simp)
  | cons hd tl ih =>
    intro r hr
    have hhd : hd.length = m := hrows hd (List.mem_cons_self hd tl)
    cases r with
    | zero =>
      rw [List.flatten_cons, rowSlice, Nat.zero_mul, List.drop_zero, ← hhd,
        List.take_left, List.getD_cons_zero]
    | succ r =>
      rw [List.flatten_cons, rowSlice, Nat.succ_mul, List.getD_cons_succ]
      rw [show r * m + m = hd.length + r * m by omega, List.drop_append]
      have hlt : r < tl.length := by
        simp only [List.length_cons] at hr
        omega
      exact ih (fun row hmem => hrows row (List.mem_cons_of_mem _ hmem)) r hlt

/-- Flattening the rows cut out of a list of length `nb * m` recovers
the list. -/
theorem flatten_rowSlice (m nb : Nat) (x : List Int) (hx : x.length = nb * m) :
    ((List.range nb).map fun r => rowSlice m r x).flatten = x := by
  induction nb generalizing x with
  | zero =>
    have hnil : x = [] := List.eq_nil_of_length_eq_zero (by simp [hx])
    simp [hnil]
  | succ nb ih =>
    have hdrop : (x.drop m).length = nb * m := by
      rw [List.length_drop, hx, Nat.succ_mul]
      omega
    rw [List.range_succ_eq_map, List.map_cons, List.flatten_cons, List.map_map]
    have hcomp : ((fun r => rowSlice m r x) ∘ (· + 1))
        = fun r => rowSlice m r (x.drop m) := by
      funext r
      show (x.drop ((r + 1) * m)).take m = ((x.drop m).drop (r * m)).take m
      rw [List.drop_drop, show m + r * m = (r + 1) * m from by rw [Nat.succ_mul]; omega]
    rw [show rowSlice m 0 x = x.take m from by simp [rowSlice], hcomp,
      ih (x.drop m) hdrop, List.take_append_drop]

/-- Numpy column indexing of a well-formed 2-D array with in-range
indices succeeds and reorders each row by the index array. -/
theorem fancyCols_ok (nb m : Nat) (x : List Int) (p : List Nat)
    (hpin : ∀ i ∈ p, i < m) :
    fancyCols ⟨[nb, m], x⟩ p
      = .ok ⟨[nb, p.length],
             ((List.range nb).map fun r => indexSelect p (rowSlice m r x)).flatten⟩ := by
  simp only [fancyCols]
  rw [if_pos]
  · rfl
  · simp only [List.all_eq_true, decide_eq_true_eq]
    intro i hi
    simpa using hpin i hi

/-- Length of the row-wise reordered flat data. -/
theorem length_permuted_rows (nb m : Nat) (x : List Int) (p : List Nat) :
    (((List.range nb).map fun r => indexSelect p (rowSlice m r x)).flatten).length
      = nb * p.length := by
  rw [List.length_flatten, List.map_map]
  have hconst : (List.range nb).map (List.length ∘ fun r => indexSelect p (rowSlice m r x))
      = List.replicate nb p.length := by
    have hmem : ∀ y ∈ (List.range nb).map
        (List.length ∘ fun r => indexSelect p (rowSlice m r x)), y = p.length := by
      intro y hy
      obtain ⟨r, _, rfl⟩ := List.mem_map.mp hy
      simp [length_indexSelect]
    have := List.eq_replicate_of_mem hmem
    simpa using this
  rw [hconst, List.sum_replicate, smul_eq_mul]

/-- Full run of the image permuter on a well-formed 3-D batch whose
axes all differ from 1, with an in-range permutation of the flattened
length: every step succeeds and the result is the same batch with each
pixels of each image reordered by the permutation. -/
theorem shuffle_image_batch (h w nb : Nat) (x : List Int) (p : List Nat)
    (hnb1 : nb ≠ 1) (hnb : 0 < nb) (hh : h ≠ 1) (hw : w ≠ 1) (hhw : 0 < h * w)
    (hx : x.length = nb * (h * w)) (hplen : p.length = h * w)
    (hpin : ∀ i ∈ p, i < h * w) :
    shuffle_image h w ⟨[nb, h, w], x⟩ p
      = .ok ⟨[nb, h, w],
             ((List.range nb).map fun r => indexSelect p (rowSlice (h * w) r x)).flatten⟩ := by
  rw [show shuffle_image h w ⟨[nb, h, w], x⟩ p
      = (reshapeRows ⟨[nb, h, w], x⟩).bind fun image =>
        (fancyCols image p).bind fun image =>
        (reshapeImages h w image).map squeeze from rfl]
  have h1 : reshapeRows ⟨[nb, h, w], x⟩ = .ok ⟨[nb, h * w], x⟩ := by
    simp only [reshapeRows]
    rw [if_pos ⟨Nat.pos_iff_ne_zero.mp hnb, ⟨h * w, hx⟩⟩]
    simp [hx, Nat.mul_div_cancel_left _ hnb]
  rw [h1,
    show ((Except.ok (⟨[nb, h * w], x⟩ : NDArray) : Except ArrayError NDArray).bind
      fun image => (fancyCols image p).bind
        fun image => (reshapeImages h w image).map squeeze)
      = (fancyCols ⟨[nb, h * w], x⟩ p).bind
          fun image => (reshapeImages h w image).map squeeze from rfl,
    fancyCols_ok nb (h * w) x p hpin]
  have h3 : reshapeImages h w
      ⟨[nb, p.length], ((List.range nb).map fun r => indexSelect p (rowSlice (h * w) r x)).flatten⟩
      = .ok ⟨[nb, h, w],
             ((List.range nb).map fun r => indexSelect p (rowSlice (h * w) r x)).flatten⟩ := by
    simp only [reshapeImages]
    rw [if_pos ⟨Nat.pos_iff_ne_zero.mp hhw,
      ⟨nb, by rw [length_permuted_rows, hplen, Nat.mul_comm]⟩⟩]
    rw [length_permuted_rows, hplen, Nat.mul_div_cancel _ hhw]
  rw [show ((Except.ok (⟨[nb, p.length],
        ((List.range nb).map fun r => indexSelect p (rowSlice (h * w) r x)).flatten⟩
        : NDArray) : Except ArrayError NDArray).bind
      fun image => (reshapeImages h w image).map squeeze)
      = (reshapeImages h w ⟨[nb, p.length],
          ((List.range nb).map fun r => indexSelect p (rowSlice (h * w) r x)).flatten⟩).map
            squeeze from rfl, h3]
  show Except.ok (squeeze ⟨[nb, h, w],
      ((List.range nb).map fun r => indexSelect p (rowSlice (h * w) r x)).flatten⟩) = _
  rw [show squeeze ⟨[nb, h, w],
      ((List.range nb).map fun r => indexSelect p (rowSlice (h * w) r x)).flatten⟩
      = ⟨[nb, h, w],
         ((List.range nb).map fun r => indexSelect p (rowSlice (h * w) r x)).flatten⟩ from by
    simp [squeeze, List.filter, hnb1, hh, hw]]

/-- Claim C3: on the single 2 x 2 image `[[1,2],[3,4]]` and the
permutation `[2,0,3,1]`, the image permuter flattens to `[1,2,3,4]`,
places at output position `i` the input value at position
`permutation[i]`, giving `[3,1,4,2]`, and reshapes back to the 2 x 2
image `[[3,1],[4,2]]`. -/
theorem shuffle_image_concrete_2x2 :
    shuffle_image 2 2 ⟨[2, 2], [1, 2, 3, 4]⟩ [2, 0, 3, 1]
      = .ok ⟨[2, 2], [3, 1, 4, 2]⟩ := rfl

/-- Unfolding one iteration of the failure-aware swap loop. -/
theorem generate_permutation_checked_succ (size n : Nat) (rng : Nat → Nat × Nat) :
    generate_permutation_checked size (n + 1) rng
      = (generate_permutation_checked size n rng).bind fun l =>
        (choicePair size (rng n)).bind fun ij => swapPosChecked l ij.1 ij.2 := by
  unfold generate_permutation_checked
  rw [List.range_succ, List.foldl_append]
  rfl

/-- The running index array keeps its length through the swap loop. -/
theorem length_generate_permutation (size n : Nat) (rng : Nat → Nat × Nat) :
    (generate_permutation size n rng).length = size := by
  induction n with
  | zero => simp [generate_permutation]
  | succ n ih => rw [generate_permutation_succ, length_swapPos, ih]

/-- Whenever every draw succeeds and returns in-range indices — which
is exactly what `np.random.choice(size, (2,), replace=False)` does
whenever it does not raise, in particular always when `2 ≤ size` — the
failure-aware generator succeeds and computes `generate_permutation`. -/
theorem generate_permutation_checked_agrees (size n : Nat) (rng : Nat → Nat × Nat)
    (hsize : 2 ≤ size)
    (hin : ∀ k, k < n → (rng k).1 < size ∧ (rng k).2 < size) :
    generate_permutation_checked size n rng
      = .ok (generate_permutation size n rng) := by
  induction n with
  | zero => rfl
  | succ n ih =>
    rw [generate_permutation_checked_succ, ih (fun k hk => hin k (Nat.lt_succ_of_lt hk)),
      show choicePair size (rng n) = .ok (rng n) from by
        unfold choicePair
        rw [if_pos hsize]]
    show swapPosChecked (generate_permutation size n rng) (rng n).1 (rng n).2 = _
    unfold swapPosChecked
    rw [if_pos ⟨by rw [length_generate_permutation]; exact (hin n (Nat.lt_succ_self n)).1,
      by rw [length_generate_permutation]; exact (hin n (Nat.lt_succ_self n)).2⟩,
      generate_permutation_succ]

/-- Claim C5 counterexample: the source generator performs no size
validation of its own.  Abstracting its hard-coded 784 to a requested
size of `0`: with a swap count of `0` the loop body never runs, so no
`np.random.choice` call and no indexing is reached, and the generator
returns the empty sequence — a sequence is returned and no failure of
any kind, let alone an `InvalidArgument` condition, is signalled. -/
theorem generate_permutation_no_validation_counterexample :
    generate_permutation_checked 0 0 (fun _ => (0, 1)) = .ok [] := rfl

/-- Claim C5 amended: the source generator takes no size argument (its
size is fixed at 784) and validates nothing; abstracting the size, a
requested size of `0` (or `1`) is not rejected as such.  With swap
count `0` the generator returns the identity sequence on `[0, size)` —
the empty sequence at size `0` — without failing; with swap count at
least `1` it does fail, but with the ValueError that
`np.random.choice` raises on being asked for two distinct indices from
fewer than two, not with any `InvalidArgument` validation of the
requested size. -/
theorem generate_permutation_no_validation :
    (∀ (size : Nat) (rng : Nat → Nat × Nat),
      generate_permutation_checked size 0 rng = .ok (List.range size)) ∧
    (∀ (size n : Nat) (rng : Nat → Nat × Nat), size < 2 → 1 ≤ n →
      generate_permutation_checked size n rng = .error .valueError) := by
  constructor
  · intro size rng
    rfl
  · intro size n rng hsize hn
    have key : ∀ m : Nat,
        generate_permutation_checked size (m + 1) rng = .error .valueError := by
      intro m
      induction m with
      | zero =>
        rw [generate_permutation_checked_succ,
          show generate_permutation_checked size 0 rng
            = .ok (List.range size) from rfl,
          show choicePair size (rng 0)
            = (.error .valueError : Except ArrayError (Nat × Nat)) from by
            unfold choicePair
            rw [if_neg (by omega)]]
        rfl
      | succ m ih =>
        rw [generate_permutation_checked_succ, ih]
        rfl
    cases n with
    | zero => omega
    | succ m => exact key m

/-- Witness for the amended no-validation claim: size 0 with zero
swaps returns the empty sequence, and size 0 with five swaps fails at
the first random draw. -/
theorem generate_permutation_no_validation_witness :
    generate_permutation_checked 0 0 (fun _ => (0, 1)) = .ok (List.range 0) ∧
    (0 < 2 ∧ 1 ≤ 5 ∧
      generate_permutation_checked 0 5 (fun _ => (0, 1)) = .error .valueError) :=
  ⟨generate_permutation_no_validation.1 0 (fun _ => (0, 1)),
   by decide, by decide,
   generate_permutation_no_validation.2 0 5 (fun _ => (0, 1)) (by decide) (by decide)⟩

/-- The permuter reaches the integer-array indexing of numpy with row
length `h * w`, so an out-of-range index (and only an in-run failure
like it, not a wrong permutation length as such) fails the call. -/
theorem shuffle_image_oob (h w nb : Nat) (x : List Int) (p : List Nat)
    (hnb : 0 < nb) (hx : x.length = nb * (h * w)) (hoob : ∃ i ∈ p, h * w ≤ i) :
    shuffle_image h w ⟨[nb, h, w], x⟩ p = .error .indexError := by
  obtain ⟨i, hip, hi⟩ := hoob
  rw [show shuffle_image h w ⟨[nb, h, w], x⟩ p
      = (reshapeRows ⟨[nb, h, w], x⟩).bind fun image =>
        (fancyCols image p).bind fun image =>
        (reshapeImages h w image).map squeeze from rfl]
  have h1 : reshapeRows ⟨[nb, h, w], x⟩ = .ok ⟨[nb, x.length / nb], x⟩ := by
    simp only [reshapeRows]
    rw [if_pos ⟨Nat.pos_iff_ne_zero.mp hnb, ⟨h * w, hx⟩⟩]
    rfl
  rw [h1]
  have hm : x.length / nb = h * w := by
    rw [hx]
    exact Nat.mul_div_cancel_left _ hnb
  have h2 : fancyCols ⟨[nb, x.length / nb], x⟩ p = .error .indexError := by
    simp only [fancyCols]
    rw [if_neg]
    simp only [List.all_eq_true, decide_eq_true_eq, not_forall]
    exact ⟨i, hip, by rw [List.getD_cons_succ, List.getD_cons_zero, hm]; omega⟩
  rw [show ((Except.ok ⟨[nb, x.length / nb], x⟩ : Except ArrayError NDArray).bind
      fun image => (fancyCols image p).bind
        fun image => (reshapeImages h w image).map squeeze)
      = (fancyCols ⟨[nb, x.length / nb], x⟩ p).bind
          fun image => (reshapeImages h w image).map squeeze from rfl, h2]
  rfl

/-- The realigner fails on a weights list of the wrong arity: Python
unpacking of `model.get_weights()` into `W, b, w, c` requires exactly
four arrays. -/
theorem magic_wrong_arity (ws : List NDArray) (p : List Nat) (h : ws.length ≠ 4) :
    magic ws p = .error .unpackError := by
  rcases ws with _ | ⟨a, _ | ⟨b, _ | ⟨c, _ | ⟨d, _ | ⟨e, t⟩⟩⟩⟩⟩
  · rfl
  · rfl
  · rfl
  · rfl
  · exact absurd rfl h
  · rfl

/-- The realigner performs no row-count-versus-permutation-length
check: whenever every index is within the row count of the kernel, it
succeeds, whatever the length of the permutation, returning a kernel with
one selected row per index. -/
theorem magic_no_row_check (K b w c : NDArray) (p : List Nat)
    (hin : ∀ i ∈ p, i < K.shape.getD 0 0) :
    magic [K, b, w, c] p
      = .ok [⟨[p.length, K.shape.getD 1 0],
              (p.map fun r => rowSlice (K.shape.getD 1 0) r K.data).flatten⟩,
             b, w, c] := by
  simp only [magic, fancyRows]
  rw [if_pos]
  · rfl
  · simp only [List.all_eq_true, decide_eq_true_eq]
    exact hin

/-- Claim C4 counterexample: neither rejection holds on the code.  The
permuter, given a single 2 x 2 image and an in-range permutation of
length 8 (not `H*W = 4`), silently succeeds, returning a "batch" of
two images; the realigner, given a 2-row kernel and a permutation of
length 1 (not 2), silently succeeds, returning a 1-row kernel.  In
neither case is any `ShapeMismatch`-like failure produced. -/
theorem shape_mismatch_counterexample :
    shuffle_image 2 2 ⟨[1, 2, 2], [1, 2, 3, 4]⟩ [0, 1, 2, 3, 3, 2, 1, 0]
      = .ok ⟨[2, 2, 2], [1, 2, 3, 4, 4, 3, 2, 1]⟩ ∧
    magic [⟨[2, 1], [10, 20]⟩, ⟨[1], [0]⟩, ⟨[1, 1], [7]⟩, ⟨[1], [0]⟩] [0]
      = .ok [⟨[1, 1], [10]⟩, ⟨[1], [0]⟩, ⟨[1, 1], [7]⟩, ⟨[1], [0]⟩] :=
  ⟨rfl, rfl⟩

/-- Claim C4 amended: the permuter fails (with an index error) when
the permutation holds an index out of the flattened range `[0, H*W)`,
but a wrong-length permutation with in-range entries is not rejected;
the realigner fails (with an unpacking error) exactly when the weights
list does not hold exactly four arrays, and it performs no check of
the row count of the kernel against the length of the permutation — with
in-range indices it succeeds whatever that length is. -/
theorem shape_mismatch_amended :
    (∀ (h w nb : Nat) (x : List Int) (p : List Nat), 0 < nb →
      x.length = nb * (h * w) → (∃ i ∈ p, h * w ≤ i) →
      shuffle_image h w ⟨[nb, h, w], x⟩ p = .error .indexError) ∧
    (∀ (ws : List NDArray) (p : List Nat), ws.length ≠ 4 →
      magic ws p = .error .unpackError) ∧
    (∀ (K b w c : NDArray) (p : List Nat), (∀ i ∈ p, i < K.shape.getD 0 0) →
      magic [K, b, w, c] p
        = .ok [⟨[p.length, K.shape.getD 1 0],
                (p.map fun r => rowSlice (K.shape.getD 1 0) r K.data).flatten⟩,
               b, w, c]) :=
  ⟨shuffle_image_oob, magic_wrong_arity, magic_no_row_check⟩

/-- Witness for the amended shape-mismatch claim, at concrete inputs:
an out-of-range index `5` for a 2 x 2 image, an empty weights list,
and a length-1 permutation against a 2-row kernel. -/
theorem shape_mismatch_amended_witness :
    shuffle_image 2 2 ⟨[1, 2, 2], [1, 2, 3, 4]⟩ [5] = .error .indexError ∧
    magic [] [0] = .error .unpackError ∧
    magic [⟨[2, 1], [10, 20]⟩, ⟨[1], [0]⟩, ⟨[1, 1], [7]⟩, ⟨[1], [0]⟩] [1]
      = .ok [⟨[1, 1], [20]⟩, ⟨[1], [0]⟩, ⟨[1, 1], [7]⟩, ⟨[1], [0]⟩] :=
  ⟨shape_mismatch_amended.1 2 2 1 [1, 2, 3, 4] [5] (by decide) (by decide)
      ⟨5, by decide, by decide⟩,
   shape_mismatch_amended.2.1 [] [0] (by decide),
   shape_mismatch_amended.2.2 ⟨[2, 1], [10, 20]⟩ ⟨[1], [0]⟩ ⟨[1, 1], [7]⟩ ⟨[1], [0]⟩
      [1] (by decide)⟩

/-- Claim C7: with `swap_count = 0` the generator returns the identity
index array `[0, 1, ..., size - 1]` for every random source. -/
theorem generate_permutation_zero_swaps (size : Nat) (rng : Nat → Nat × Nat)
    (_hsize : 0 < size) :
    generate_permutation size 0 rng = List.range size := rfl

/-- Witness for the zero-swap identity claim at `size = 4`. -/
theorem generate_permutation_zero_swaps_witness :
    0 < 4 ∧ generate_permutation 4 0 (fun _ => (0, 1)) = List.range 4 :=
  ⟨by decide, generate_permutation_zero_swaps 4 (fun _ => (0, 1)) (by decide)⟩

/-- Claim C10: a batch holding exactly one image, supplied with an
explicit batch axis `[1, h, w]`, comes back as a single squeezed image
of shape `[h, w]`: the final `squeeze` removes the length-1 batch axis
of 3-D single-element batches too, not only for 2-D single-image
input. -/
theorem shuffle_image_single_batch (h w : Nat) (x : List Int) (p : List Nat)
    (hh : 2 ≤ h) (hw : 2 ≤ w) (hx : x.length = h * w)
    (hp : p.Perm (List.range (h * w))) :
    shuffle_image h w ⟨[1, h, w], x⟩ p = .ok ⟨[h, w], indexSelect p x⟩ := by
  have hhw : 0 < h * w := Nat.mul_pos (by omega) (by omega)
  have hplen : p.length = h * w := by simpa using hp.length_eq
  have hpin : ∀ i ∈ p, i < h * w := fun i hi => List.mem_range.mp (hp.mem_iff.mp hi)
  have hh1 : h ≠ 1 := by omega
  have hw1 : w ≠ 1 := by omega
  rw [show shuffle_image h w ⟨[1, h, w], x⟩ p
      = (reshapeRows ⟨[1, h, w], x⟩).bind fun image =>
        (fancyCols image p).bind fun image =>
        (reshapeImages h w image).map squeeze from rfl]
  have h1 : reshapeRows ⟨[1, h, w], x⟩ = .ok ⟨[1, h * w], x⟩ := by
    simp only [reshapeRows]
    rw [if_pos ⟨one_ne_zero, one_dvd _⟩]
    simp [hx]
  rw [h1,
    show ((Except.ok (⟨[1, h * w], x⟩ : NDArray) : Except ArrayError NDArray).bind
      fun image => (fancyCols image p).bind
        fun image => (reshapeImages h w image).map squeeze)
      = (fancyCols ⟨[1, h * w], x⟩ p).bind
          fun image => (reshapeImages h w image).map squeeze from rfl,
    fancyCols_ok 1 (h * w) x p hpin]
  have hdata : ((List.range 1).map fun r => indexSelect p (rowSlice (h * w) r x)).flatten
      = indexSelect p x := by
    have hfull : rowSlice (h * w) 0 x = x := by
      simp only [rowSlice, Nat.zero_mul, List.drop_zero]
      rw [← hx, List.take_length]
    rw [show ((List.range 1).map fun r => indexSelect p (rowSlice (h * w) r x))
        = [indexSelect p (rowSlice (h * w) 0 x)] from rfl,
      List.flatten_cons, List.flatten_nil, List.append_nil, hfull]
  rw [hdata]
  have h3 : reshapeImages h w ⟨[1, p.length], indexSelect p x⟩
      = .ok ⟨[1, h, w], indexSelect p x⟩ := by
    simp only [reshapeImages]
    rw [if_pos ⟨Nat.pos_iff_ne_zero.mp hhw,
      ⟨1, by rw [length_indexSelect, hplen, Nat.mul_one]⟩⟩]
    rw [length_indexSelect, hplen, Nat.div_self hhw]
  rw [show ((Except.ok (⟨[1, p.length], indexSelect p x⟩ : NDArray)
      : Except ArrayError NDArray).bind
      fun image => (reshapeImages h w image).map squeeze)
      = (reshapeImages h w ⟨[1, p.length], indexSelect p x⟩).map squeeze from rfl, h3]
  show Except.ok (squeeze ⟨[1, h, w], indexSelect p x⟩) = _
  rw [show squeeze ⟨[1, h, w], indexSelect p x⟩ = ⟨[h, w], indexSelect p x⟩ from by
    simp [squeeze, List.filter, hh1, hw1]]

/-- Witness for the single-element-batch squeeze claim: one 2 x 2
image with an explicit batch axis and the permutation `[1,0,3,2]`. -/
theorem shuffle_image_single_batch_witness :
    (2 ≤ 2 ∧ (4 : Nat) = 2 * 2 ∧ ([1, 0, 3, 2] : List Nat).Perm (List.range (2 * 2))) ∧
    shuffle_image 2 2 ⟨[1, 2, 2], [1, 2, 3, 4]⟩ [1, 0, 3, 2]
      = .ok ⟨[2, 2], indexSelect [1, 0, 3, 2] [1, 2, 3, 4]⟩ :=
  ⟨⟨by decide, by decide, by decide⟩,
   shuffle_image_single_batch 2 2 [1, 2, 3, 4] [1, 0, 3, 2]
     (by decide) (by decide) (by decide) (by decide)⟩

/-- Reordering a row by `p` and then by a right-inverse `q` of `p`
(positionwise, `p[q[k]] = k`) restores the row. -/
theorem indexSelect_inverse (m : Nat) (row : List Int) (p q : List Nat)
    (hrow : row.length = m) (hplen : p.length = m) (hqlen : q.length = m)
    (hqin : ∀ i ∈ q, i < m)
    (hinv : ∀ k, k < m → p.getD (q.getD k 0) 0 = k) :
    indexSelect q (indexSelect p row) = row := by
  apply List.ext_getElem
  · simp [length_indexSelect, hqlen, hrow]
  · intro k h1 h2
    have hk : k < m := by simpa [length_indexSelect, hqlen] using h1
    rw [← List.getD_eq_getElem _ 0 h1,
      getD_indexSelect _ _ (by rw [hqlen]; exact hk)]
    have hqmem : q.getD k 0 ∈ q := by
      rw [List.getD_eq_getElem _ _ (by rw [hqlen]; exact hk)]
      exact List.getElem_mem _
    have hqk : q.getD k 0 < m := hqin _ hqmem
    rw [getD_indexSelect _ _ (by rw [hplen]; exact hqk), hinv k hk,
      List.getD_eq_getElem _ 0 h2]

/-- Claim C6 counterexample: the round trip is not the identity on
one-element 3-D batches.  With the self-inverse permutation
`[0,1,2,3]`, permuting the batch `[1, 2, 2]` twice returns the single
squeezed image of shape `[2, 2]` - the length-1 batch axis is lost, so
the result is not bit-for-bit identical to the input batch. -/
theorem shuffle_image_roundtrip_counterexample :
    ((shuffle_image 2 2 ⟨[1, 2, 2], [1, 2, 3, 4]⟩ [0, 1, 2, 3]).bind
        fun b => shuffle_image 2 2 b [0, 1, 2, 3])
      = .ok ⟨[2, 2], [1, 2, 3, 4]⟩ ∧
    (⟨[2, 2], [1, 2, 3, 4]⟩ : NDArray) ≠ ⟨[1, 2, 2], [1, 2, 3, 4]⟩ :=
  ⟨rfl, by decide⟩

/-- Claim C6 amended: for a batch of at least two images (and image
axes differing from 1, as for the 28 x 28 images of the notebook),
permuting with `p` and then with the inverse permutation of `p`
returns the original batch exactly; a 3-D batch of exactly one image
instead comes back as the squeezed single image carrying the original
pixel data (the counterexample above), because the output `squeeze`
drops its batch axis. -/
theorem shuffle_image_roundtrip (h w nb : Nat) (x : List Int) (p q : List Nat)
    (hnb : 2 ≤ nb) (hh : 2 ≤ h) (hw : 2 ≤ w)
    (hx : x.length = nb * (h * w))
    (hp : p.Perm (List.range (h * w))) (hq : q.Perm (List.range (h * w)))
    (hinv : ∀ k, k < h * w → p.getD (q.getD k 0) 0 = k) :
    (shuffle_image h w ⟨[nb, h, w], x⟩ p).bind
      (fun b => shuffle_image h w b q) = .ok ⟨[nb, h, w], x⟩ := by
  have hhw : 0 < h * w := Nat.mul_pos (by omega) (by omega)
  have hplen : p.length = h * w := by simpa using hp.length_eq
  have hqlen : q.length = h * w := by simpa using hq.length_eq
  have hpin : ∀ i ∈ p, i < h * w := fun i hi => List.mem_range.mp (hp.mem_iff.mp hi)
  have hqin : ∀ i ∈ q, i < h * w := fun i hi => List.mem_range.mp (hq.mem_iff.mp hi)
  rw [shuffle_image_batch h w nb x p (by omega) (by omega) (by omega) (by omega)
    hhw hx hplen hpin]
  show shuffle_image h w
      ⟨[nb, h, w], ((List.range nb).map fun r => indexSelect p (rowSlice (h * w) r x)).flatten⟩ q
    = .ok ⟨[nb, h, w], x⟩
  have hlen2 : (((List.range nb).map fun r => indexSelect p (rowSlice (h * w) r x)).flatten).length
      = nb * (h * w) := by
    rw [length_permuted_rows, hplen]
  rw [shuffle_image_batch h w nb _ q (by omega) (by omega) (by omega) (by omega)
    hhw hlen2 hqlen hqin]
  have hrowlen : ∀ row ∈ (List.range nb).map fun r => indexSelect p (rowSlice (h * w) r x),
      row.length = h * w := by
    intro row hmem
    obtain ⟨r2, _, rfl⟩ := List.mem_map.mp hmem
    rw [length_indexSelect, hplen]
  have hmaps : ((List.range nb).map fun r => indexSelect q (rowSlice (h * w) r
        (((List.range nb).map fun r => indexSelect p (rowSlice (h * w) r x)).flatten)))
      = (List.range nb).map fun r => rowSlice (h * w) r x := by
    apply List.map_congr_left
    intro r hr
    have hrn : r < nb := List.mem_range.mp hr
    have h5 : rowSlice (h * w) r
        (((List.range nb).map fun r => indexSelect p (rowSlice (h * w) r x)).flatten)
        = ((List.range nb).map fun r => indexSelect p (rowSlice (h * w) r x)).getD r [] :=
      rowSlice_flatten (h * w) _ hrowlen r (by simpa using hrn)
    have h6 : ((List.range nb).map fun r => indexSelect p (rowSlice (h * w) r x)).getD r []
        = indexSelect p (rowSlice (h * w) r x) := by
      rw [List.getD_eq_getElem _ _ (by simpa using hrn)]
      simp
    rw [h5, h6, indexSelect_inverse (h * w) _ p q
      (length_rowSlice _ _ nb _ hx hrn) hplen hqlen hqin hinv]
  rw [hmaps, flatten_rowSlice (h * w) nb x hx]

/-- Witness for the amended round-trip claim: a batch of two 2 x 2
images and the mutually inverse permutations `p = q = [1, 0, 3, 2]`. -/
theorem shuffle_image_roundtrip_witness :
    ((2 : Nat) ≤ 2 ∧ ([1, 2, 3, 4, 5, 6, 7, 8] : List Int).length = 2 * (2 * 2) ∧
      ([1, 0, 3, 2] : List Nat).Perm (List.range (2 * 2)) ∧
      (∀ k, k < 2 * 2 →
        ([1, 0, 3, 2] : List Nat).getD (([1, 0, 3, 2] : List Nat).getD k 0) 0 = k)) ∧
    ((shuffle_image 2 2 ⟨[2, 2, 2], [1, 2, 3, 4, 5, 6, 7, 8]⟩ [1, 0, 3, 2]).bind
      (fun b => shuffle_image 2 2 b [1, 0, 3, 2])
      = .ok ⟨[2, 2, 2], [1, 2, 3, 4, 5, 6, 7, 8]⟩) :=
  ⟨⟨by decide, by decide, by decide, by decide⟩,
   shuffle_image_roundtrip 2 2 2 [1, 2, 3, 4, 5, 6, 7, 8] [1, 0, 3, 2] [1, 0, 3, 2]
     (by decide) (by decide) (by decide) (by decide) (by decide) (by decide) (by decide)⟩

/-- Tabulating `g` over the positions of `l` equals mapping `g` over
`l` itself. -/
theorem range_map_getD (l : List Nat) (g : Nat → Int) :
    (List.range l.length).map (fun i => g (l.getD i 0)) = l.map g := by
  apply List.ext_getElem
  · simp
  · intro k h1 h2
    simp only [List.getElem_map, List.getElem_range]
    rw [List.getD_eq_getElem _ _ (by simpa using h2)]

/-- Entry `(i, j)` of the row-gathered (realigned) kernel is entry
`(p[i], j)` of the original kernel. -/
theorem getD_gathered (hd : Nat) (Kd : List Int) (dd : Nat) (p : List Nat)
    (hKd : Kd.length = dd * hd) (hpin : ∀ i ∈ p, i < dd)
    {i j : Nat} (hi : i < p.length) (hj : j < hd) :
    ((p.map fun r => rowSlice hd r Kd).flatten).getD (i * hd + j) 0
      = Kd.getD (p.getD i 0 * hd + j) 0 := by
  have hrows : ∀ row ∈ p.map fun r => rowSlice hd r Kd, row.length = hd := by
    intro row hmem
    obtain ⟨r, hr, rfl⟩ := List.mem_map.mp hmem
    exact length_rowSlice hd r dd Kd hKd (hpin r hr)
  have h1 : rowSlice hd i ((p.map fun r => rowSlice hd r Kd).flatten)
      = (p.map fun r => rowSlice hd r Kd).getD i [] :=
    rowSlice_flatten hd _ hrows i (by simpa using hi)
  have h2 : (p.map fun r => rowSlice hd r Kd).getD i [] = rowSlice hd (p.getD i 0) Kd := by
    rw [List.getD_eq_getElem _ _ (by simpa using hi), List.getElem_map,
      List.getD_eq_getElem _ _ hi]
  calc ((p.map fun r => rowSlice hd r Kd).flatten).getD (i * hd + j) 0
      = (rowSlice hd i ((p.map fun r => rowSlice hd r Kd).flatten)).getD j 0 :=
        (getD_rowSlice hd i _ hj).symm
    _ = (rowSlice hd (p.getD i 0) Kd).getD j 0 := by rw [h1, h2]
    _ = Kd.getD (p.getD i 0 * hd + j) 0 := getD_rowSlice hd _ Kd hj

/-- Claim C1: for a first-layer kernel of shape `[D, H]`, biases and a
second layer, a permutation `p` of `[0, D)` and an image `x` with `D`
pixels, the weight realigner succeeds, row `i` of the realigned kernel
is row `p[i]` of the original kernel, and the realigned kernel
transposed and dot-producted with the permuted image (pixel `i` of
which is pixel `p[i]` of `x`) equals the original kernel transposed
and dot-producted with the original image: the pre-activations of the
first layer are exactly unchanged over exact arithmetic, because
each hidden unit sums the same scalar products in a different order. -/
theorem magic_invariance (dd hd : Nat) (Kd : List Int) (b w2 c : NDArray)
    (p : List Nat) (x : List Int)
    (hKd : Kd.length = dd * hd) (_hx : x.length = dd)
    (hp : p.Perm (List.range dd)) :
    magic [⟨[dd, hd], Kd⟩, b, w2, c] p
      = .ok [⟨[p.length, hd], (p.map fun r => rowSlice hd r Kd).flatten⟩, b, w2, c] ∧
    (∀ i, i < p.length →
      rowSlice hd i ((p.map fun r => rowSlice hd r Kd).flatten)
        = rowSlice hd (p.getD i 0) Kd) ∧
    preactT ⟨[p.length, hd], (p.map fun r => rowSlice hd r Kd).flatten⟩ (indexSelect p x)
      = preactT ⟨[dd, hd], Kd⟩ x := by
  have hpin : ∀ i ∈ p, i < dd := fun i hi => List.mem_range.mp (hp.mem_iff.mp hi)
  have hplen : p.length = dd := by simpa using hp.length_eq
  have hrows : ∀ row ∈ p.map fun r => rowSlice hd r Kd, row.length = hd := by
    intro row hmem
    obtain ⟨r, hr, rfl⟩ := List.mem_map.mp hmem
    exact length_rowSlice hd r dd Kd hKd (hpin r hr)
  refine ⟨?_, ?_, ?_⟩
  · exact magic_no_row_check ⟨[dd, hd], Kd⟩ b w2 c p (fun i hi => hpin i hi)
  · intro i hi
    rw [rowSlice_flatten hd _ hrows i (by simpa using hi),
      List.getD_eq_getElem _ _ (by simpa using hi), List.getElem_map,
      List.getD_eq_getElem _ _ hi]
  · show (List.range hd).map (fun j => ((List.range p.length).map fun i =>
        ((p.map fun r => rowSlice hd r Kd).flatten).getD (i * hd + j) 0 *
          (indexSelect p x).getD i 0).sum)
      = (List.range hd).map (fun j => ((List.range dd).map fun i =>
          Kd.getD (i * hd + j) 0 * x.getD i 0).sum)
    apply List.map_congr_left
    intro j hj
    have hjlt : j < hd := List.mem_range.mp hj
    have hterm : ((List.range p.length).map fun i =>
        ((p.map fun r => rowSlice hd r Kd).flatten).getD (i * hd + j) 0 *
          (indexSelect p x).getD i 0)
        = (List.range p.length).map fun i =>
          Kd.getD (p.getD i 0 * hd + j) 0 * x.getD (p.getD i 0) 0 := by
      apply List.map_congr_left
      intro i hi
      have hilt : i < p.length := List.mem_range.mp hi
      rw [getD_gathered hd Kd dd p hKd hpin hilt hjlt, getD_indexSelect p x hilt]
    rw [hterm, range_map_getD p (fun r => Kd.getD (r * hd + j) 0 * x.getD r 0)]
    exact List.Perm.sum_eq (hp.map _)

/-- Witness for the invariance claim: a 2-input, 1-hidden-unit kernel
`[[10], [20]]`, the permutation `[1, 0]` and the image `[3, 4]`. -/
theorem magic_invariance_witness :
    (([10, 20] : List Int).length = 2 * 1 ∧ ([3, 4] : List Int).length = 2 ∧
      ([1, 0] : List Nat).Perm (List.range 2)) ∧
    (magic [⟨[2, 1], [10, 20]⟩, ⟨[1], [0]⟩, ⟨[1, 1], [7]⟩, ⟨[1], [0]⟩] [1, 0]
      = .ok [⟨[([1, 0] : List Nat).length, 1],
              (([1, 0] : List Nat).map fun r => rowSlice 1 r [10, 20]).flatten⟩,
             ⟨[1], [0]⟩, ⟨[1, 1], [7]⟩, ⟨[1], [0]⟩] ∧
     (∀ i, i < ([1, 0] : List Nat).length →
       rowSlice 1 i ((([1, 0] : List Nat).map fun r => rowSlice 1 r [10, 20]).flatten)
         = rowSlice 1 (([1, 0] : List Nat).getD i 0) [10, 20]) ∧
     preactT ⟨[([1, 0] : List Nat).length, 1],
              (([1, 0] : List Nat).map fun r => rowSlice 1 r [10, 20]).flatten⟩
         (indexSelect [1, 0] [3, 4])
       = preactT ⟨[2, 1], [10, 20]⟩ [3, 4]) :=
  ⟨⟨by decide, by decide, by decide⟩,
   magic_invariance 2 1 [10, 20] ⟨[1], [0]⟩ ⟨[1, 1], [7]⟩ ⟨[1], [0]⟩ [1, 0] [3, 4]
     (by decide) (by decide) (by decide)⟩

/-- The value returned by the heap-level permuter is exactly the pure
permuter applied to the dereferenced argument array: the result
depends only on the value of that array, not on the heap or reference
identity. -/
theorem stResult_run (h w : Nat) (s : ArrStore) (r : Nat) (p : List Nat) :
    stResult (shuffle_image_st h w s r p) = shuffle_image h w (arrGet s r) p := by
  unfold stResult shuffle_image_st
  cases e : shuffle_image h w (arrGet s r) p with
  | error err => rfl
  | ok res =>
    show Except.ok (arrGet ⟨s.arrays ++ [res]⟩ s.arrays.length) = Except.ok res
    have hget : arrGet ⟨s.arrays ++ [res]⟩ s.arrays.length = res := by
      unfold arrGet
      rw [List.getD_append_right _ _ _ _ (le_refl _), Nat.sub_self]
      rfl
    rw [hget]

/-- Claim C8: the image permuter is pure.  First, it is referentially
transparent: whenever two heaps hold the same array value at the
referenced slots, the call returns the same result value for the same
permutation (in particular two calls with identical arguments return
identical outputs).  Second, it never writes into any existing array:
when the call succeeds, every previously allocated array — the input
batch included — still holds exactly its old value (and on failure no
new heap is produced at all). -/
theorem shuffle_image_pure :
    (∀ (h w : Nat) (s1 s2 : ArrStore) (r1 r2 : Nat) (p : List Nat),
      arrGet s1 r1 = arrGet s2 r2 →
      stResult (shuffle_image_st h w s1 r1 p)
        = stResult (shuffle_image_st h w s2 r2 p)) ∧
    (∀ (h w : Nat) (s : ArrStore) (r : Nat) (p : List Nat) (s2 : ArrStore) (ref i : Nat),
      shuffle_image_st h w s r p = .ok (s2, ref) →
      i < s.arrays.length → arrGet s2 i = arrGet s i) := by
  constructor
  · intro h w s1 s2 r1 r2 p heq
    rw [stResult_run, stResult_run, heq]
  · intro h w s r p s2 ref i hok hi
    unfold shuffle_image_st at hok
    cases e : shuffle_image h w (arrGet s r) p with
    | error err =>
      rw [e] at hok
      exact absurd hok (by simp [Except.map])
    | ok res =>
      rw [e] at hok
      have hok2 : (Except.ok (⟨s.arrays ++ [res]⟩, s.arrays.length)
          : Except ArrayError (ArrStore × Nat)) = .ok (s2, ref) := hok
      have hpair := Except.ok.inj hok2
      have hs2 : s2 = ⟨s.arrays ++ [res]⟩ := (congrArg Prod.fst hpair).symm
      rw [hs2]
      unfold arrGet
      rw [List.getD_append _ _ _ _ hi]

/-- Witness for the purity claim: the same 2 x 2 array referenced from
two different heaps gives the same result, and a successful call
leaves the pre-existing array unchanged. -/
theorem shuffle_image_pure_witness :
    (arrGet ⟨[⟨[2, 2], [1, 2, 3, 4]⟩]⟩ 0
        = arrGet ⟨[⟨[9], [5]⟩, ⟨[2, 2], [1, 2, 3, 4]⟩]⟩ 1 ∧
      stResult (shuffle_image_st 2 2 ⟨[⟨[2, 2], [1, 2, 3, 4]⟩]⟩ 0 [1, 0, 3, 2])
        = stResult (shuffle_image_st 2 2
            ⟨[⟨[9], [5]⟩, ⟨[2, 2], [1, 2, 3, 4]⟩]⟩ 1 [1, 0, 3, 2])) ∧
    (shuffle_image_st 2 2 ⟨[⟨[2, 2], [1, 2, 3, 4]⟩]⟩ 0 [1, 0, 3, 2]
        = .ok (⟨[⟨[2, 2], [1, 2, 3, 4]⟩, ⟨[2, 2], [2, 1, 4, 3]⟩]⟩, 1) ∧
      0 < 1 ∧
      arrGet ⟨[⟨[2, 2], [1, 2, 3, 4]⟩, ⟨[2, 2], [2, 1, 4, 3]⟩]⟩ 0
        = arrGet ⟨[⟨[2, 2], [1, 2, 3, 4]⟩]⟩ 0) :=
  ⟨⟨rfl, shuffle_image_pure.1 2 2 ⟨[⟨[2, 2], [1, 2, 3, 4]⟩]⟩
      ⟨[⟨[9], [5]⟩, ⟨[2, 2], [1, 2, 3, 4]⟩]⟩ 0 1 [1, 0, 3, 2] rfl⟩,
   ⟨rfl, by decide,
    shuffle_image_pure.2 2 2 ⟨[⟨[2, 2], [1, 2, 3, 4]⟩]⟩ 0 [1, 0, 3, 2]
      ⟨[⟨[2, 2], [1, 2, 3, 4]⟩, ⟨[2, 2], [2, 1, 4, 3]⟩]⟩ 1 0 rfl (by decide)⟩⟩

/-- The literal generator of the notebook is the abstracted generator at
the hard-coded size 784. -/
theorem get_shuffle_indices_eq (n : Nat) (rng : Nat → Nat × Nat) :
    get_shuffle_indices n rng = generate_permutation 784 n rng := rfl

/-- The literal permuter of the notebook is the abstracted permuter at the
hard-coded 28 x 28 geometry. -/
theorem shuffle_image_nb_eq (image : NDArray) (shuf_idx : List Nat) :
    shuffle_image_nb image shuf_idx = shuffle_image 28 28 image shuf_idx := rfl
